import Mathlib

/-!
Verification of the MW-NFD strategy framework, FIB lookup, PIT token handling,
CS replacement policy and internal transport against their C++ sources
(src/daemon/fw/strategy.cpp, src/daemon/table/cs-policy.cpp,
src/daemon/face/internal-transport.cpp and companions).

Names (ndn-cxx `Name`) are sequences of components; the canonical component
order (TLV type, then length, then value bytes) is a discrete linear order
with a computable least strict upper bound per component.  We model a
component by its TLV type and its value read as a natural number, ordered
lexicographically; this is order-isomorphic to the byte-level order and
preserves every property the daemon code relies on (strict total order,
discreteness, version-component recognition).
-/

namespace MwNfd

/-- A name component: TLV type and value (abstraction of `ndn::name::Component`).
The naming convention marks version components with TLV-TYPE 54. -/
structure Component where
  typ : Nat
  val : Nat
deriving DecidableEq, Repr

/-- TLV type of a version component under the typed naming convention. -/
def versionType : Nat := 54

/-- Source: `Component::isVersion()`. -/
def Component.isVersion (c : Component) : Bool := c.typ = versionType

/-- Source: `Component::toVersion()` - the version number carried by the component. -/
def Component.toVersion (c : Component) : Nat := c.val

/-- Source: `Component::getSuccessor()` - least component strictly greater. -/
def Component.succ (c : Component) : Component := ⟨c.typ, c.val + 1⟩

/-- An NDN name is a sequence of components. -/
abbrev Name := List Component

/-- Canonical order on components: by TLV type, then by value
(abstracting type / length / byte order of `Component::compare`). -/
def compCmp (a b : Component) : Ordering :=
  if a.typ < b.typ then .lt
  else if b.typ < a.typ then .gt
  else if a.val < b.val then .lt
  else if b.val < a.val then .gt
  else .eq

/-- Canonical order on names: componentwise, a proper prefix sorts first
(source: `Name::compare`). -/
def nameCmp : Name → Name → Ordering
  | [], [] => .eq
  | [], _ :: _ => .lt
  | _ :: _, [] => .gt
  | a :: as, b :: bs =>
    match compCmp a b with
    | .eq => nameCmp as bs
    | o => o

/-- Source: `Name::isPrefixOf`. -/
def namePrefixOf : Name → Name → Bool
  | [], _ => true
  | _ :: _, [] => false
  | a :: as, b :: bs => if a = b then namePrefixOf as bs else false

/-- Source: `Name::getSuccessor` - the least name strictly greater than every
name extending this one (for a nonempty name: drop-last plus successor of the
last component; for the empty name: the least nonempty name). -/
def getSuccessor : Name → Name
  | [] => [⟨1, 0⟩]
  | [c] => [c.succ]
  | c :: c' :: cs => c :: getSuccessor (c' :: cs)

theorem compCmp_eq_iff {a b : Component} : compCmp a b = .eq ↔ a = b := by
  constructor
  · intro h
    unfold compCmp at h
    split_ifs at h <;> try simp at h
    have ht : a.typ = b.typ := by omega
    have hv : a.val = b.val := by omega
    cases a
    cases b
    simp_all
  · rintro rfl
    unfold compCmp
    simp

theorem compCmp_self (a : Component) : compCmp a a = .eq := compCmp_eq_iff.mpr rfl

theorem compCmp_gt_iff {a b : Component} : compCmp a b = .gt ↔ compCmp b a = .lt := by
  unfold compCmp
  split_ifs <;> simp_all <;> omega

theorem compCmp_lt_trans {a b c : Component} :
    compCmp a b = .lt → compCmp b c = .lt → compCmp a c = .lt := by
  unfold compCmp
  split_ifs <;> simp_all <;> omega

/-- Discreteness: no component lies strictly between `a` and `a.succ`. -/
theorem compCmp_discrete {a b : Component} :
    compCmp a b = .lt → compCmp b a.succ = .lt → False := by
  unfold compCmp Component.succ
  split_ifs <;> simp_all <;> omega

theorem nameCmp_eq_iff {x y : Name} : nameCmp x y = .eq ↔ x = y := by
  induction x generalizing y with
  | nil => cases y <;> simp [nameCmp]
  | cons a as ih =>
    cases y with
    | nil => simp [nameCmp]
    | cons b bs =>
      simp only [nameCmp]
      rcases h : compCmp a b with _ | _ | _
      · simp only [List.cons_eq_cons]
        constructor
        · intro hx
          exact absurd hx (by simp)
        · rintro ⟨hab, -⟩
          subst hab
          simp [compCmp_self] at h
      · rw [compCmp_eq_iff] at h
        subst h
        simp [List.cons_eq_cons, ih]
      · simp only [List.cons_eq_cons]
        constructor
        · intro hx
          exact absurd hx (by simp)
        · rintro ⟨hab, -⟩
          subst hab
          simp [compCmp_self] at h

theorem nameCmp_self (x : Name) : nameCmp x x = .eq := nameCmp_eq_iff.mpr rfl

theorem nameCmp_gt_iff {x y : Name} : nameCmp x y = .gt ↔ nameCmp y x = .lt := by
  induction x generalizing y with
  | nil => cases y <;> simp [nameCmp]
  | cons a as ih =>
    cases y with
    | nil => simp [nameCmp]
    | cons b bs =>
      simp only [nameCmp]
      rcases h : compCmp a b with _ | _ | _
      · have hba : compCmp b a = .gt := compCmp_gt_iff.mpr h
        simp [hba]
      · rw [compCmp_eq_iff] at h
        subst h
        simp [compCmp_self, ih]
      · have hba : compCmp b a = .lt := compCmp_gt_iff.mp h
        simp [hba]

theorem nameCmp_lt_trans {x y z : Name} :
    nameCmp x y = .lt → nameCmp y z = .lt → nameCmp x z = .lt := by
  induction x generalizing y z with
  | nil =>
    cases y with
    | nil => simp [nameCmp]
    | cons b bs => cases z <;> simp [nameCmp]
  | cons a as ih =>
    cases y with
    | nil => simp [nameCmp]
    | cons b bs =>
      cases z with
      | nil => simp [nameCmp]
      | cons c cs =>
        simp only [nameCmp]
        rcases hab : compCmp a b with _ | _ | _ <;>
          rcases hbc : compCmp b c with _ | _ | _ <;> intro h1 h2 <;> try simp_all
        · have := compCmp_lt_trans hab hbc
          simp [this]
        · rw [compCmp_eq_iff] at hbc
          subst hbc
          simp [hab]
        · rw [compCmp_eq_iff] at hab
          subst hab
          simp [hbc]
        · rw [compCmp_eq_iff] at hab
          subst hab
          rw [hbc]
          exact ih h1 h2

theorem nameCmp_le_iff {x y : Name} : nameCmp x y ≠ .gt ↔ (nameCmp x y = .lt ∨ x = y) := by
  rcases h : nameCmp x y with _ | _ | _ <;> simp_all [← nameCmp_eq_iff]

theorem nameCmp_lt_of_lt_of_le {x y z : Name} :
    nameCmp x y = .lt → nameCmp y z ≠ .gt → nameCmp x z = .lt := by
  intro h1 h2
  rcases nameCmp_le_iff.mp h2 with h | h
  · exact nameCmp_lt_trans h1 h
  · subst h; exact h1

theorem nameCmp_lt_of_le_of_lt {x y z : Name} :
    nameCmp x y ≠ .gt → nameCmp y z = .lt → nameCmp x z = .lt := by
  intro h1 h2
  rcases nameCmp_le_iff.mp h1 with h | h
  · exact nameCmp_lt_trans h h2
  · subst h; exact h2

theorem nameCmp_lt_asymm {x y : Name} :
    nameCmp x y = .lt → nameCmp y x = .lt → False := by
  intro h1 h2
  have := nameCmp_lt_trans h1 h2
  rw [nameCmp_self x] at this
  exact Ordering.noConfusion this

/-- A name strictly precedes any proper extension of itself. -/
theorem nameCmp_append_lt (x : Name) {y : Name} (hy : y ≠ []) :
    nameCmp x (x ++ y) = .lt := by
  induction x with
  | nil => cases y with
    | nil => exact absurd rfl hy
    | cons b bs => simp [nameCmp]
  | cons a as ih => simpa [nameCmp, compCmp_self] using ih

/-- A prefix is less than or equal in canonical order. -/
theorem nameCmp_le_of_prefixOf {x y : Name} (h : namePrefixOf x y = true) :
    nameCmp x y ≠ .gt := by
  induction x generalizing y with
  | nil => cases y <;> simp [nameCmp]
  | cons a as ih =>
    cases y with
    | nil => simp [namePrefixOf] at h
    | cons b bs =>
      simp only [namePrefixOf] at h
      split_ifs at h with hab
      · subst hab
        simpa [nameCmp, compCmp_self] using ih h

theorem compCmp_succ_self (a : Component) : compCmp a a.succ = .lt := by
  unfold compCmp Component.succ
  split_ifs <;> simp_all

theorem nameCmp_not_lt_nil (x : Name) : nameCmp x [] ≠ .lt := by
  cases x <;> simp [nameCmp]

theorem nameCmp_nil_ne_gt (x : Name) : nameCmp [] x ≠ .gt := by
  cases x <;> simp [nameCmp]

theorem nameCmp_cons_cons_lt {a b : Component} {as bs : Name} (h : compCmp a b = .lt) :
    nameCmp (a :: as) (b :: bs) = .lt := by
  simp [nameCmp, h]

theorem nameCmp_cons_cons_gt {a b : Component} {as bs : Name} (h : compCmp a b = .gt) :
    nameCmp (a :: as) (b :: bs) = .gt := by
  simp [nameCmp, h]

theorem nameCmp_cons_cons_eq (a : Component) (as bs : Name) :
    nameCmp (a :: as) (a :: bs) = nameCmp as bs := by
  simp [nameCmp, compCmp_self]

theorem namePrefixOf_cons (a b : Component) (as bs : Name) :
    namePrefixOf (a :: as) (b :: bs) = if a = b then namePrefixOf as bs else false := rfl

theorem getSuccessor_single (c : Component) : getSuccessor [c] = [Component.succ c] := rfl

theorem getSuccessor_cons (c c' : Component) (cs : Name) :
    getSuccessor (c :: c' :: cs) = c :: getSuccessor (c' :: cs) := rfl

/-- Interval characterization of the prefix relation: for a nonempty `base`,
the names extending `base` are exactly those in `[base, getSuccessor base)`
under canonical order.  This is the property `Strategy::find` relies on. -/
theorem prefixOf_iff_between {base y : Name} (hb : base ≠ []) :
    namePrefixOf base y = true ↔
      (nameCmp base y ≠ .gt ∧ nameCmp y (getSuccessor base) = .lt) := by
  induction base generalizing y with
  | nil => exact absurd rfl hb
  | cons a as ih =>
    cases y with
    | nil => simp [namePrefixOf, nameCmp]
    | cons b bs =>
      cases as with
      | nil =>
        constructor
        · intro h
          rw [namePrefixOf_cons] at h
          split_ifs at h with hab
          subst hab
          refine ⟨?_, ?_⟩
          · rw [nameCmp_cons_cons_eq]
            exact nameCmp_nil_ne_gt bs
          · rw [getSuccessor_single]
            exact nameCmp_cons_cons_lt (compCmp_succ_self a)
        · rintro ⟨h1, h2⟩
          rw [getSuccessor_single] at h2
          rcases hab : compCmp a b with _ | _ | _
          · exfalso
            rcases hsb : compCmp b a.succ with _ | _ | _
            · exact compCmp_discrete hab hsb
            · rw [compCmp_eq_iff] at hsb
              subst hsb
              rw [nameCmp_cons_cons_eq] at h2
              exact nameCmp_not_lt_nil bs h2
            · rw [nameCmp_cons_cons_gt hsb] at h2
              exact Ordering.noConfusion h2
          · rw [compCmp_eq_iff] at hab
            subst hab
            rw [namePrefixOf_cons]
            simp [namePrefixOf]
          · exact absurd (nameCmp_cons_cons_gt hab) h1
      | cons a' as' =>
        constructor
        · intro h
          rw [namePrefixOf_cons] at h
          split_ifs at h with hab
          subst hab
          have hrec := (ih (by simp)).mp h
          refine ⟨?_, ?_⟩
          · rw [nameCmp_cons_cons_eq]
            exact hrec.1
          · rw [getSuccessor_cons, nameCmp_cons_cons_eq]
            exact hrec.2
        · rintro ⟨h1, h2⟩
          rw [getSuccessor_cons] at h2
          rcases hab : compCmp a b with _ | _ | _
          · exfalso
            rw [nameCmp_cons_cons_gt (compCmp_gt_iff.mpr hab)] at h2
            exact Ordering.noConfusion h2
          · rw [compCmp_eq_iff] at hab
            subst hab
            rw [nameCmp_cons_cons_eq] at h1 h2
            rw [namePrefixOf_cons, if_pos rfl]
            exact (ih (by simp)).mpr ⟨h1, h2⟩
          · exact absurd (nameCmp_cons_cons_gt hab) h1

/-! ### Strategy instance names

Source: `Strategy::parseInstanceName` and `Strategy::makeInstanceName`
(src/daemon/fw/strategy.cpp lines 125-144). -/

/-- Result of `Strategy::parseInstanceName`. -/
structure ParsedInstanceName where
  strategyName : Name
  version : Option Nat
  parameters : Name
deriving DecidableEq, Repr

/-- Placeholder component used for out-of-range reads; it is not a version
component, so it coincides with the C++ loop that never reads out of range. -/
def cDefault : Component := ⟨0, 0⟩

/-- The loop of `parseInstanceName`: scan indices `i, i-1, ..., 1` (never 0)
for the last version component. -/
def parseLoop (input : Name) : Nat → ParsedInstanceName
  | 0 => ⟨input, none, []⟩
  | i + 1 =>
    if (input.getD (i + 1) cDefault).isVersion then
      ⟨input.take (i + 2), some (input.getD (i + 1) cDefault).toVersion, input.drop (i + 2)⟩
    else parseLoop input i

/-- Source: `Strategy::parseInstanceName` - split the input at the last
version component, looking at indices `size-1` down to `1`. -/
def parseInstanceName (input : Name) : ParsedInstanceName :=
  parseLoop input (input.length - 1)

/-- Source: `Strategy::makeInstanceName` - return `input` unchanged when it
contains a version component anywhere, else append the version component of
`strategyName` (its last component). -/
def makeInstanceName (input strategyName : Name) : Name :=
  if input.any (·.isVersion) then input else input ++ [strategyName.getLastD cDefault]

theorem cDefault_not_version : cDefault.isVersion = false := by decide

theorem getD_isVersion_lt_length {input : Name} {m : Nat}
    (h : (input.getD m cDefault).isVersion = true) : m < input.length := by
  by_contra hm
  rw [List.getD_eq_default _ _ (by omega)] at h
  rw [cDefault_not_version] at h
  exact Bool.noConfusion h

theorem parseLoop_no_version {input : Name} {n : Nat}
    (h : ∀ j, 1 ≤ j → j ≤ n → (input.getD j cDefault).isVersion = false) :
    parseLoop input n = ⟨input, none, []⟩ := by
  induction n with
  | zero => rfl
  | succ i ih =>
    unfold parseLoop
    rw [h (i + 1) (by omega) (by omega)]
    simp only [Bool.false_eq_true, if_false]
    exact ih fun j h1 h2 => h j h1 (by omega)

theorem parseLoop_version {input : Name} {n i : Nat}
    (hin : i + 1 ≤ n)
    (hv : (input.getD (i + 1) cDefault).isVersion = true)
    (hafter : ∀ j, i + 1 < j → j ≤ n → (input.getD j cDefault).isVersion = false) :
    parseLoop input n =
      ⟨input.take (i + 2), some (input.getD (i + 1) cDefault).toVersion, input.drop (i + 2)⟩ := by
  induction n with
  | zero => omega
  | succ m ih =>
    unfold parseLoop
    by_cases hm : i = m
    · subst hm
      rw [hv]
      simp
    · rw [hafter (m + 1) (by omega) (by omega)]
      simp only [Bool.false_eq_true, if_false]
      exact ih (by omega) fun j h1 h2 => hafter j h1 (by omega)

theorem parse_no_version {input : Name}
    (h : ∀ j, 1 ≤ j → j < input.length → (input.getD j cDefault).isVersion = false) :
    parseInstanceName input = ⟨input, none, []⟩ := by
  unfold parseInstanceName
  exact parseLoop_no_version fun j h1 h2 => h j h1 (by omega)

theorem parse_version {input : Name} {i : Nat}
    (h1 : 1 ≤ i) (h2 : i < input.length)
    (hv : (input.getD i cDefault).isVersion = true)
    (hafter : ∀ j, i < j → j < input.length → (input.getD j cDefault).isVersion = false) :
    parseInstanceName input =
      ⟨input.take (i + 1), some (input.getD i cDefault).toVersion, input.drop (i + 1)⟩ := by
  unfold parseInstanceName
  obtain ⟨i', rfl⟩ : ∃ i', i = i' + 1 := ⟨i - 1, by omega⟩
  exact parseLoop_version (by omega) hv fun j hj1 hj2 => hafter j hj1 (by omega)

/-- C9: `parseInstanceName` never treats the first component as a version:
with no version component at positions 1 and beyond it returns the whole
input unversioned with empty parameters, and otherwise it splits at the last
version component. -/
theorem parseInstanceName_spec (input : Name) :
    ((∀ j, 1 ≤ j → j < input.length → (input.getD j cDefault).isVersion = false) →
       parseInstanceName input = ⟨input, none, []⟩) ∧
    (∀ i, 1 ≤ i → i < input.length → (input.getD i cDefault).isVersion = true →
       (∀ j, i < j → j < input.length → (input.getD j cDefault).isVersion = false) →
       parseInstanceName input =
         ⟨input.take (i + 1), some (input.getD i cDefault).toVersion, input.drop (i + 1)⟩) :=
  ⟨parse_no_version, fun _ h1 h2 hv hafter => parse_version h1 h2 hv hafter⟩

/-- Witness for C9 at concrete inputs: a version component at position 0 only
is ignored, and a version at position 1 of a three-component name splits there. -/
theorem parseInstanceName_spec_witness :
    parseInstanceName [⟨54, 9⟩, ⟨8, 1⟩] = ⟨[⟨54, 9⟩, ⟨8, 1⟩], none, []⟩ ∧
    parseInstanceName [⟨8, 1⟩, ⟨54, 5⟩, ⟨8, 2⟩] =
      ⟨[⟨8, 1⟩, ⟨54, 5⟩], some 5, [⟨8, 2⟩]⟩ := by
  constructor
  · refine (parseInstanceName_spec [⟨54, 9⟩, ⟨8, 1⟩]).1 ?_
    intro j h1 h2
    simp only [List.length_cons, List.length_nil] at h2
    have hj : j = 1 := by omega
    subst hj
    decide
  · have h := (parseInstanceName_spec [⟨8, 1⟩, ⟨54, 5⟩, ⟨8, 2⟩]).2 1 (by decide) (by decide)
      (by decide) ?_
    · exact h.trans (by decide)
    · intro j hj1 hj2
      simp only [List.length_cons, List.length_nil] at hj2
      have hj : j = 2 := by omega
      subst hj
      decide

theorem nameCmp_le_trans {x y z : Name} (h1 : nameCmp x y ≠ .gt) (h2 : nameCmp y z ≠ .gt) :
    nameCmp x z ≠ .gt := by
  rcases nameCmp_le_iff.mp h1 with h | h
  · rcases nameCmp_le_iff.mp h2 with h' | h'
    · have := nameCmp_lt_trans h h'
      simp [this]
    · subst h'
      simp [h]
  · subst h
    exact h2

theorem nameCmp_le_antisymm {x y : Name} (h1 : nameCmp x y ≠ .gt) (h2 : nameCmp y x ≠ .gt) :
    x = y := by
  rcases nameCmp_le_iff.mp h1 with h | h
  · rcases nameCmp_le_iff.mp h2 with h' | h'
    · exact absurd (nameCmp_lt_trans h h') (by simp [nameCmp_self])
    · exact h'.symm
  · exact h

/-! ### The strategy registry

Source: `Strategy::find`, `Strategy::canCreate`, `Strategy::create`
(src/daemon/fw/strategy.cpp lines 50-108).  The registry is a
`std::map<Name, CreateFunc>` ordered by canonical name order; we model its
key sequence as a strictly ascending list of names.  `lowerBound` returns the
suffix starting at `map::lower_bound` (the first key not less than the
probe); `predLowerBound` models `--lower_bound` guarded by `!= begin()` (the
last key strictly below the probe). -/

abbrev Registry := List Name

/-- The registry keys in strictly ascending canonical order. -/
def regSorted (reg : Registry) : Prop :=
  List.Pairwise (fun a b => nameCmp a b = Ordering.lt) reg

instance : DecidablePred regSorted := fun reg =>
  List.instDecidablePairwise reg

def lowerBound (reg : Registry) (k : Name) : Registry :=
  match reg with
  | [] => []
  | r :: rest => if nameCmp r k = .lt then lowerBound rest k else r :: rest

def predLowerBound (reg : Registry) (k : Name) : Option Name :=
  match reg with
  | [] => none
  | r :: rest => if nameCmp r k = .lt then some ((predLowerBound rest k).getD r) else none

/-- The versioned branch of `Strategy::find`: `lower_bound` on the parsed
(versioned) strategy name, then a prefix check against the versionless name
(`parsed.strategyName.getPrefix(-1)`). -/
def findVersioned (reg : Registry) (strategyName : Name) : Option Name :=
  match lowerBound reg strategyName with
  | found :: _ => if namePrefixOf strategyName.dropLast found then some found else none
  | [] => none

/-- The unversioned branch of `Strategy::find`: for a nonempty strategy name,
step back from `lower_bound(strategyName.getSuccessor())` when that is not
`begin()`, then a prefix check against the strategy name. -/
def findUnversioned (reg : Registry) (strategyName : Name) : Option Name :=
  if strategyName ≠ [] then
    match predLowerBound reg (getSuccessor strategyName) with
    | some found => if namePrefixOf strategyName found then some found else none
    | none => none
  else none

/-- Source: `Strategy::find` (src/daemon/fw/strategy.cpp lines 50-86). -/
def find (reg : Registry) (instanceName : Name) : Option Name :=
  match (parseInstanceName instanceName).version with
  | some _ => findVersioned reg (parseInstanceName instanceName).strategyName
  | none => findUnversioned reg (parseInstanceName instanceName).strategyName

/-- Source: `Strategy::canCreate`. -/
def canCreate (reg : Registry) (instanceName : Name) : Bool :=
  (find reg instanceName).isSome

/-- A created strategy object, reduced to the state the claims mention. -/
structure StrategyObj where
  instanceName : Name
deriving DecidableEq, Repr

/-- Modelled from the spec: the registered factories' bodies (the strategy
subclass constructors) are not under src/.  Per strategy.hpp they must call
`setInstanceName(makeInstanceName(instanceName, getStrategyName()))` with
their versioned strategy name, so the created object's instance name is
`makeInstanceName` of the requested name and the registered name. -/
def runFactory (registeredName instanceName : Name) : StrategyObj :=
  ⟨makeInstanceName instanceName registeredName⟩

/-- Source: `Strategy::create` - `nullptr` when `find` fails, otherwise the
factory result. -/
def create (reg : Registry) (instanceName : Name) : Option StrategyObj :=
  match find reg instanceName with
  | none => none
  | some registeredName => some (runFactory registeredName instanceName)

theorem lowerBound_head_spec {reg : Registry} {k : Name} (hs : regSorted reg)
    {r : Name} {rest : Registry} (h : lowerBound reg k = r :: rest) :
    r ∈ reg ∧ nameCmp r k ≠ .lt ∧ ∀ x ∈ reg, nameCmp x k ≠ .lt → nameCmp r x ≠ .gt := by
  induction reg with
  | nil => exact absurd h (by simp [lowerBound])
  | cons a as ih =>
    unfold lowerBound at h
    split_ifs at h with ha
    · obtain ⟨h1, h2, h3⟩ := ih hs.tail h
      refine ⟨List.mem_cons_of_mem a h1, h2, ?_⟩
      intro x hx hxk
      rcases List.mem_cons.mp hx with rfl | hx'
      · exact absurd ha hxk
      · exact h3 x hx' hxk
    · obtain ⟨rfl, -⟩ := List.cons_eq_cons.mp h
      refine ⟨List.mem_cons_self _ _, ha, ?_⟩
      intro x hx _
      rcases List.mem_cons.mp hx with rfl | hx'
      · simp [nameCmp_self]
      · have := List.rel_of_pairwise_cons hs hx'
        simp [this]

theorem lowerBound_nil_iff {reg : Registry} {k : Name} :
    lowerBound reg k = [] ↔ ∀ x ∈ reg, nameCmp x k = .lt := by
  induction reg with
  | nil => simp [lowerBound]
  | cons a as ih =>
    unfold lowerBound
    split_ifs with ha <;> simp_all

theorem predLowerBound_none_iff {reg : Registry} {k : Name} (hs : regSorted reg) :
    predLowerBound reg k = none ↔ ∀ x ∈ reg, nameCmp x k ≠ .lt := by
  induction reg with
  | nil => simp [predLowerBound]
  | cons a as ih =>
    unfold predLowerBound
    split_ifs with ha
    · simp only [Option.some_ne_none, false_iff]
      intro hall
      exact hall a (List.mem_cons_self a as) ha
    · simp only [true_iff]
      intro x hx
      rcases List.mem_cons.mp hx with rfl | hx'
      · exact ha
      · intro hxk
        have hax := List.rel_of_pairwise_cons hs hx'
        exact ha (nameCmp_lt_trans hax hxk)

theorem predLowerBound_some_spec {reg : Registry} {k p : Name} (hs : regSorted reg)
    (h : predLowerBound reg k = some p) :
    p ∈ reg ∧ nameCmp p k = .lt ∧ ∀ x ∈ reg, nameCmp x k = .lt → nameCmp x p ≠ .gt := by
  induction reg with
  | nil => exact absurd h (by simp [predLowerBound])
  | cons a as ih =>
    unfold predLowerBound at h
    split_ifs at h with ha
    · rcases hq : predLowerBound as k with _ | q
      · rw [hq] at h
        simp only [Option.getD_none, Option.some.injEq] at h
        subst h
        refine ⟨List.mem_cons_self _ _, ha, ?_⟩
        intro x hx hxk
        rcases List.mem_cons.mp hx with rfl | hx'
        · simp [nameCmp_self]
        · exact absurd hxk ((predLowerBound_none_iff hs.tail).mp hq x hx')
      · rw [hq] at h
        simp only [Option.getD_some, Option.some.injEq] at h
        subst h
        obtain ⟨h1, h2, h3⟩ := ih hs.tail hq
        refine ⟨List.mem_cons_of_mem a h1, h2, ?_⟩
        intro x hx hxk
        rcases List.mem_cons.mp hx with rfl | hx'
        · have := List.rel_of_pairwise_cons hs h1
          simp [this]
        · exact h3 x hx' hxk

theorem parseLoop_some_shape {input : Name} {n : Nat} {v : Nat}
    (h : (parseLoop input n).version = some v) :
    2 ≤ (parseLoop input n).strategyName.length := by
  induction n with
  | zero => simp [parseLoop] at h
  | succ i ih =>
    unfold parseLoop at h ⊢
    split_ifs at h ⊢ with hv
    · have := getD_isVersion_lt_length hv
      simp only [List.length_take]
      omega
    · exact ih h

theorem parse_version_some_shape {input : Name} {v : Nat}
    (h : (parseInstanceName input).version = some v) :
    2 ≤ (parseInstanceName input).strategyName.length := by
  unfold parseInstanceName at h ⊢
  exact parseLoop_some_shape h

/-- If a qualifying registered name exists (versionless prefix and at least
the parsed versioned name), then the head of `lowerBound` itself extends the
versionless prefix.  `base` is the versionless strategy name, `k` the parsed
versioned name. -/
theorem head_prefix_of_qualifying {reg : Registry} {k base r0 : Name} {rest : Registry}
    (hs : regSorted reg) (hlb : lowerBound reg k = r0 :: rest)
    (hbase : base ≠ []) (hbk : nameCmp base k = .lt)
    {x : Name} (hx : x ∈ reg) (hxpre : namePrefixOf base x = true)
    (hxge : nameCmp k x ≠ .gt) :
    namePrefixOf base r0 = true := by
  have hspec := lowerBound_head_spec hs hlb
  have hr0x : nameCmp r0 x ≠ .gt :=
    hspec.2.2 x hx fun hlt => hxge (nameCmp_gt_iff.mpr hlt)
  have hx_int := (prefixOf_iff_between hbase).mp hxpre
  refine (prefixOf_iff_between hbase).mpr ⟨?_, ?_⟩
  · have hkr0 : nameCmp k r0 ≠ .gt := fun hgt => hspec.2.1 (nameCmp_gt_iff.mp hgt)
    have : nameCmp base r0 = .lt := nameCmp_lt_of_lt_of_le hbk hkr0
    simp [this]
  · exact nameCmp_lt_of_le_of_lt hr0x hx_int.2

/-- If a registered name extending `k` exists, then the predecessor of
`lower_bound(getSuccessor k)` itself extends `k`. -/
theorem pred_prefix_of_qualifying {reg : Registry} {k p : Name}
    (hs : regSorted reg) (hp : predLowerBound reg (getSuccessor k) = some p)
    (hk : k ≠ []) {x : Name} (hx : x ∈ reg) (hxpre : namePrefixOf k x = true) :
    namePrefixOf k p = true := by
  have hspec := predLowerBound_some_spec hs hp
  have hx_int := (prefixOf_iff_between hk).mp hxpre
  have hxp : nameCmp x p ≠ .gt := hspec.2.2 x hx hx_int.2
  exact (prefixOf_iff_between hk).mpr ⟨nameCmp_le_trans hx_int.1 hxp, hspec.2.1⟩

theorem findVersioned_some_iff {reg : Registry} (hs : regSorted reg) {k : Name}
    (hbase_ne : k.dropLast ≠ []) (hbk : nameCmp k.dropLast k = .lt) (r : Name) :
    findVersioned reg k = some r ↔
      (r ∈ reg ∧ namePrefixOf k.dropLast r = true ∧ nameCmp k r ≠ .gt ∧
       ∀ x ∈ reg, namePrefixOf k.dropLast x = true → nameCmp k x ≠ .gt →
         nameCmp r x ≠ .gt) := by
  unfold findVersioned
  cases hlb : lowerBound reg k with
  | nil =>
    constructor
    · intro h
      exact absurd h (by simp)
    · rintro ⟨hr, -, hge, -⟩
      have := lowerBound_nil_iff.mp hlb r hr
      exact absurd (nameCmp_gt_iff.mpr this) hge
  | cons r0 rest =>
    have hspec := lowerBound_head_spec hs hlb
    dsimp only
    by_cases hpre : namePrefixOf k.dropLast r0 = true
    · rw [if_pos hpre]
      constructor
      · intro h
        obtain rfl := Option.some.inj h
        refine ⟨hspec.1, hpre, fun hgt => hspec.2.1 (nameCmp_gt_iff.mp hgt), ?_⟩
        intro x hx _ hxge
        exact hspec.2.2 x hx fun hlt => hxge (nameCmp_gt_iff.mpr hlt)
      · rintro ⟨hr, hrpre, hge, hmin⟩
        have hr0r : nameCmp r0 r ≠ .gt :=
          hspec.2.2 r hr fun hlt => hge (nameCmp_gt_iff.mpr hlt)
        have hkr0 : nameCmp k r0 ≠ .gt := fun hgt => hspec.2.1 (nameCmp_gt_iff.mp hgt)
        have hrr0 : nameCmp r r0 ≠ .gt := hmin r0 hspec.1 hpre hkr0
        rw [nameCmp_le_antisymm hr0r hrr0]
    · rw [if_neg hpre]
      constructor
      · intro h
        exact absurd h (by simp)
      · rintro ⟨hr, hrpre, hge, -⟩
        exact absurd (head_prefix_of_qualifying hs hlb hbase_ne hbk hr hrpre hge) hpre

theorem findVersioned_none_iff {reg : Registry} (hs : regSorted reg) {k : Name}
    (hbase_ne : k.dropLast ≠ []) (hbk : nameCmp k.dropLast k = .lt) :
    findVersioned reg k = none ↔
      ∀ x ∈ reg, ¬(namePrefixOf k.dropLast x = true ∧ nameCmp k x ≠ .gt) := by
  unfold findVersioned
  cases hlb : lowerBound reg k with
  | nil =>
    constructor
    · rintro - x hx ⟨-, hxge⟩
      have := lowerBound_nil_iff.mp hlb x hx
      exact absurd (nameCmp_gt_iff.mpr this) hxge
    · intro _
      rfl
  | cons r0 rest =>
    have hspec := lowerBound_head_spec hs hlb
    dsimp only
    by_cases hpre : namePrefixOf k.dropLast r0 = true
    · rw [if_pos hpre]
      constructor
      · intro h
        exact absurd h (by simp)
      · intro hall
        exact absurd ⟨hpre, fun hgt => hspec.2.1 (nameCmp_gt_iff.mp hgt)⟩ (hall r0 hspec.1)
    · rw [if_neg hpre]
      constructor
      · rintro - x hx ⟨hxpre, hxge⟩
        exact absurd (head_prefix_of_qualifying hs hlb hbase_ne hbk hx hxpre hxge) hpre
      · intro _
        rfl

theorem findUnversioned_some_iff {reg : Registry} (hs : regSorted reg) {k : Name}
    (hk : k ≠ []) (r : Name) :
    findUnversioned reg k = some r ↔
      (r ∈ reg ∧ namePrefixOf k r = true ∧
       ∀ x ∈ reg, namePrefixOf k x = true → nameCmp x r ≠ .gt) := by
  unfold findUnversioned
  rw [if_pos hk]
  cases hp : predLowerBound reg (getSuccessor k) with
  | none =>
    constructor
    · intro h
      exact absurd h (by simp)
    · rintro ⟨hr, hrpre, -⟩
      have hrint := (prefixOf_iff_between hk).mp hrpre
      exact absurd hrint.2 ((predLowerBound_none_iff hs).mp hp r hr)
  | some p =>
    have hspec := predLowerBound_some_spec hs hp
    dsimp only
    by_cases hpre : namePrefixOf k p = true
    · rw [if_pos hpre]
      constructor
      · intro h
        obtain rfl := Option.some.inj h
        refine ⟨hspec.1, hpre, ?_⟩
        intro x hx hxpre
        exact hspec.2.2 x hx ((prefixOf_iff_between hk).mp hxpre).2
      · rintro ⟨hr, hrpre, hmax⟩
        have hrint := (prefixOf_iff_between hk).mp hrpre
        have hrp : nameCmp r p ≠ .gt := hspec.2.2 r hr hrint.2
        have hpr : nameCmp p r ≠ .gt := hmax p hspec.1 hpre
        rw [nameCmp_le_antisymm hpr hrp]
    · rw [if_neg hpre]
      constructor
      · intro h
        exact absurd h (by simp)
      · rintro ⟨hr, hrpre, -⟩
        exact absurd (pred_prefix_of_qualifying hs hp hk hr hrpre) hpre

theorem findUnversioned_none_iff {reg : Registry} (hs : regSorted reg) {k : Name}
    (hk : k ≠ []) :
    findUnversioned reg k = none ↔ ∀ x ∈ reg, namePrefixOf k x = false := by
  unfold findUnversioned
  rw [if_pos hk]
  cases hp : predLowerBound reg (getSuccessor k) with
  | none =>
    constructor
    · rintro - x hx
      by_contra hxpre
      have hxpre' : namePrefixOf k x = true := by
        cases hxv : namePrefixOf k x
        · exact absurd hxv hxpre
        · rfl
      have hxint := (prefixOf_iff_between hk).mp hxpre'
      exact absurd hxint.2 ((predLowerBound_none_iff hs).mp hp x hx)
    · intro _
      rfl
  | some p =>
    have hspec := predLowerBound_some_spec hs hp
    dsimp only
    by_cases hpre : namePrefixOf k p = true
    · rw [if_pos hpre]
      constructor
      · intro h
        exact absurd h (by simp)
      · intro hall
        rw [hall p hspec.1] at hpre
        exact Bool.noConfusion hpre
    · rw [if_neg hpre]
      constructor
      · rintro - x hx
        by_contra hxpre
        have hxpre' : namePrefixOf k x = true := by
          cases hxv : namePrefixOf k x
          · exact absurd hxv hxpre
          · rfl
        exact absurd (pred_prefix_of_qualifying hs hp hk hx hxpre') hpre
      · intro _
        rfl

/-- Generic (non-version) name component holding value `n`. -/
def genComp (n : Nat) : Component := ⟨8, n⟩

/-- Version component carrying version number `n`. -/
def verComp (n : Nat) : Component := ⟨versionType, n⟩

/-- Registry used in concrete evaluations: one strategy name registered at
versions 1 and 3. -/
def demoRegistry : Registry := [[genComp 1, verComp 1], [genComp 1, verComp 3]]

/-- C1 counterexample: with versions 1 and 3 of a strategy registered and
version 2 requested, `Strategy::find` returns the registered version 3 (the
lowest registered version at least the requested one), not version 1 (the
highest registered version at most the requested one, which the claim
predicts). -/
theorem find_highest_le_counterexample :
    find demoRegistry [genComp 1, verComp 2] = some [genComp 1, verComp 3] ∧
    [genComp 1, verComp 1] ∈ demoRegistry ∧
    (parseInstanceName [genComp 1, verComp 2]).version = some 2 ∧
    (parseInstanceName [genComp 1, verComp 3]).version = some 3 ∧
    (parseInstanceName [genComp 1, verComp 1]).version = some 1 ∧
    ¬(3 ≤ 2) ∧ (1 ≤ 2) := by
  decide

/-- C1 (amended): resolution by `Strategy::find` on a registry whose keys are
in ascending canonical order.  With a requested version, `find` returns the
least registered name that extends the versionless strategy name and is not
below the parsed versioned name - i.e. the exact requested version or the
next higher registered one - and it fails exactly when no registered name
qualifies.  Without a version (nonempty strategy name), `find` returns the
greatest registered name extending the strategy name - the highest
registered version - and fails exactly when none extends it. -/
theorem find_resolution_spec (reg : Registry) (input : Name) (hs : regSorted reg) :
    (∀ v, (parseInstanceName input).version = some v →
      (∀ r, find reg input = some r ↔
        (r ∈ reg ∧
         namePrefixOf (parseInstanceName input).strategyName.dropLast r = true ∧
         nameCmp (parseInstanceName input).strategyName r ≠ .gt ∧
         ∀ x ∈ reg,
           namePrefixOf (parseInstanceName input).strategyName.dropLast x = true →
           nameCmp (parseInstanceName input).strategyName x ≠ .gt →
           nameCmp r x ≠ .gt)) ∧
      (find reg input = none ↔
        ∀ x ∈ reg,
          ¬(namePrefixOf (parseInstanceName input).strategyName.dropLast x = true ∧
            nameCmp (parseInstanceName input).strategyName x ≠ .gt))) ∧
    ((parseInstanceName input).version = none →
      (parseInstanceName input).strategyName ≠ [] →
      (∀ r, find reg input = some r ↔
        (r ∈ reg ∧ namePrefixOf (parseInstanceName input).strategyName r = true ∧
         ∀ x ∈ reg, namePrefixOf (parseInstanceName input).strategyName x = true →
           nameCmp x r ≠ .gt)) ∧
      (find reg input = none ↔
        ∀ x ∈ reg, namePrefixOf (parseInstanceName input).strategyName x = false)) := by
  constructor
  · intro v hv
    have hklen : 2 ≤ (parseInstanceName input).strategyName.length :=
      parse_version_some_shape hv
    have hkne : (parseInstanceName input).strategyName ≠ [] := by
      intro h
      rw [h] at hklen
      simp at hklen
    have hbase_ne : (parseInstanceName input).strategyName.dropLast ≠ [] := by
      intro h
      have hd := congrArg List.length h
      rw [List.length_dropLast] at hd
      simp at hd
      omega
    have hsplit := List.dropLast_append_getLast hkne
    have hbk : nameCmp (parseInstanceName input).strategyName.dropLast
        (parseInstanceName input).strategyName = .lt := by
      have happ : nameCmp (parseInstanceName input).strategyName.dropLast
          ((parseInstanceName input).strategyName.dropLast ++
            [(parseInstanceName input).strategyName.getLast hkne]) = .lt :=
        nameCmp_append_lt _ (by simp)
      rw [hsplit] at happ
      exact happ
    have hfv : find reg input =
        findVersioned reg (parseInstanceName input).strategyName := by
      simp only [find, hv]
    rw [hfv]
    exact ⟨fun r => findVersioned_some_iff hs hbase_ne hbk r,
           findVersioned_none_iff hs hbase_ne hbk⟩
  · intro hv hkne
    have hfu : find reg input =
        findUnversioned reg (parseInstanceName input).strategyName := by
      simp only [find, hv]
    rw [hfu]
    exact ⟨fun r => findUnversioned_some_iff hs hkne r, findUnversioned_none_iff hs hkne⟩

/-- Witness instantiating `find_resolution_spec` on the demo registry: the
requested version 2 resolves to the registered next-higher version 3. -/
theorem find_resolution_spec_witness :
    find demoRegistry [genComp 1, verComp 2] = some [genComp 1, verComp 3] :=
  (((find_resolution_spec demoRegistry [genComp 1, verComp 2] (by decide)).1 2
    (by decide)).1 [genComp 1, verComp 3]).mpr (by decide)

/-- C7: `Strategy::create` returns null exactly when `canCreate` is false
(i.e. `find` fails); the missing-name path returns null rather than failing,
and a successful creation yields an instance with a nonempty instance name. -/
theorem create_null_iff_cannot (reg : Registry) (n : Name) :
    (create reg n = none ↔ canCreate reg n = false) ∧
    (∀ inst, create reg n = some inst → inst.instanceName ≠ []) := by
  constructor
  · unfold create canCreate
    cases find reg n <;> simp
  · intro inst h
    unfold create at h
    cases hf : find reg n with
    | none =>
      rw [hf] at h
      exact absurd h (by simp)
    | some registeredName =>
      rw [hf] at h
      have hinst : inst = runFactory registeredName n := (Option.some.inj h).symm
      subst hinst
      show makeInstanceName n registeredName ≠ []
      unfold makeInstanceName
      by_cases hv : n.any (·.isVersion) = true
      · rw [if_pos hv]
        intro hnil
        rw [hnil] at hv
        simp at hv
      · rw [if_neg hv]
        simp

/-- Witness instantiating `create_null_iff_cannot` at a concrete creation. -/
theorem create_null_iff_cannot_witness :
    (⟨[genComp 1, verComp 2]⟩ : StrategyObj).instanceName ≠ [] :=
  (create_null_iff_cannot demoRegistry [genComp 1, verComp 2]).2
    ⟨[genComp 1, verComp 2]⟩ (by decide)

/-- C10 counterexample: at the empty input name the appended version
component lands at position 0, which `parseInstanceName` never treats as a
version, so the parse of the constructed instance name reports no version -
not the version (7) taken from the strategy name, as the claim predicts. -/
theorem makeInstanceName_empty_counterexample :
    makeInstanceName [] [genComp 1, verComp 7] = [verComp 7] ∧
    (([genComp 1, verComp 7] : Name).getLastD cDefault).isVersion = true ∧
    (parseInstanceName (makeInstanceName [] [genComp 1, verComp 7])).version = none := by
  decide

/-- C10 (amended): for an input without a version component,
`makeInstanceName` appends the strategy name's final version component, and
- provided the input is nonempty - `parseInstanceName` of the result reports
exactly that version; an input already containing a version component is
returned unchanged; and the operation is idempotent. -/
theorem makeInstanceName_spec (input s : Name) (hsne : s ≠ [])
    (hv : (s.getLastD cDefault).isVersion = true) :
    (input.any (·.isVersion) = false →
       makeInstanceName input s = input ++ [s.getLastD cDefault] ∧
       (input ≠ [] →
         (parseInstanceName (makeInstanceName input s)).version =
           some (s.getLastD cDefault).toVersion)) ∧
    (input.any (·.isVersion) = true → makeInstanceName input s = input) ∧
    makeInstanceName (makeInstanceName input s) s = makeInstanceName input s := by
  refine ⟨?_, ?_, ?_⟩
  · intro hno
    have hmk : makeInstanceName input s = input ++ [s.getLastD cDefault] := by
      unfold makeInstanceName
      rw [if_neg (by rw [hno]; simp)]
    refine ⟨hmk, ?_⟩
    intro hne
    rw [hmk]
    have hlen : 1 ≤ input.length := List.length_pos.mpr hne
    have hget : (input ++ [s.getLastD cDefault]).getD input.length cDefault =
        s.getLastD cDefault := by
      rw [List.getD_append_right _ _ _ _ (le_refl _)]
      simp
    have hp := @parse_version (input ++ [s.getLastD cDefault]) input.length hlen (by simp)
      (by rw [hget]; exact hv)
      (by
        intro j hj1 hj2
        simp only [List.length_append, List.length_cons, List.length_nil] at hj2
        omega)
    rw [hp]
    simp [hget]
  · intro hyes
    unfold makeInstanceName
    rw [if_pos hyes]
  · by_cases hany : input.any (·.isVersion) = true
    · have h1 : makeInstanceName input s = input := by
        unfold makeInstanceName
        rw [if_pos hany]
      rw [h1, h1]
    · have h1 : makeInstanceName input s = input ++ [s.getLastD cDefault] := by
        unfold makeInstanceName
        rw [if_neg hany]
      rw [h1]
      have h2 : (input ++ [s.getLastD cDefault]).any (·.isVersion) = true := by
        rw [List.any_append]
        simp only [List.any_cons, List.any_nil, Bool.or_false]
        rw [hv]
        simp
      unfold makeInstanceName
      rw [if_pos h2]

/-- Witness instantiating `makeInstanceName_spec` at a concrete nonempty
input: the appended version is reported back by `parseInstanceName`. -/
theorem makeInstanceName_spec_witness :
    (parseInstanceName (makeInstanceName [genComp 2] [genComp 1, verComp 7])).version =
      some 7 :=
  ((makeInstanceName_spec [genComp 2] [genComp 1, verComp 7] (by decide) (by decide)).1
    (by decide)).2 (by decide)

/-! ### FIB lookup

Source: `Strategy::lookupFib` (src/daemon/fw/strategy.cpp lines 320-358) over
`Fib::findLongestPrefixMatch`.  A FIB is a set of entries, each a prefix with
its next-hop list; only the root (empty-prefix) entry may have an empty
next-hop list (asserted at strategy.cpp line 354). -/

structure NextHop where
  faceId : Nat
  cost : Nat
deriving DecidableEq, Repr

structure FibEntry where
  pfx : Name
  nextHops : List NextHop
deriving DecidableEq, Repr

/-- The shared empty entry returned when no FIB prefix matches. -/
def emptyFibEntry : FibEntry := ⟨[], []⟩

/-- Keep the entry with the longer prefix. -/
def betterFib (a b : FibEntry) : FibEntry :=
  if a.pfx.length < b.pfx.length then b else a

/-- Source: `Fib::findLongestPrefixMatch` - the FIB entry whose prefix is the
longest prefix of `name`, or the shared empty entry when none matches. -/
def findLongestPrefixMatch (fib : List FibEntry) (name : Name) : FibEntry :=
  match fib.filter (fun e => namePrefixOf e.pfx name) with
  | [] => emptyFibEntry
  | e :: es => es.foldl betterFib e

/-- The delegation loop of `Strategy::lookupFib`: consult the FIB with each
delegation name in list order; the first whose match has next-hops wins; when
none has, the last looked-up entry is returned. -/
def lookupDelegations (fib : List FibEntry) : List Name → FibEntry
  | [] => emptyFibEntry
  | [d] => findLongestPrefixMatch fib d
  | d :: d' :: rest =>
    if (findLongestPrefixMatch fib d).nextHops.isEmpty then
      lookupDelegations fib (d' :: rest)
    else findLongestPrefixMatch fib d

/-- Source: `Strategy::lookupFib` - longest-prefix match on the Interest name
when the forwarding hint is empty, otherwise the delegation loop. -/
def lookupFib (fib : List FibEntry) (interestName : Name) (fh : List Name) : FibEntry :=
  if fh.isEmpty then findLongestPrefixMatch fib interestName
  else lookupDelegations fib fh

theorem foldl_betterFib_mem (es : List FibEntry) (e : FibEntry) :
    es.foldl betterFib e ∈ e :: es := by
  induction es generalizing e with
  | nil => simp
  | cons y ys ih =>
    simp only [List.foldl_cons]
    have hbf : betterFib e y = y ∨ betterFib e y = e := by
      unfold betterFib
      split_ifs
      · exact Or.inl rfl
      · exact Or.inr rfl
    rcases hbf with hb | hb
    · rw [hb]
      exact List.mem_cons_of_mem e (ih y)
    · rw [hb]
      rcases List.mem_cons.mp (ih e) with h | h
      · simp [h]
      · simp [h]

theorem foldl_betterFib_length (es : List FibEntry) (e : FibEntry) :
    ∀ x ∈ e :: es, x.pfx.length ≤ (es.foldl betterFib e).pfx.length := by
  induction es generalizing e with
  | nil => simp
  | cons y ys ih =>
    intro x hx
    simp only [List.foldl_cons]
    have hstep : e.pfx.length ≤ (betterFib e y).pfx.length ∧
        y.pfx.length ≤ (betterFib e y).pfx.length := by
      unfold betterFib
      split_ifs with h
      · exact ⟨le_of_lt h, le_refl _⟩
      · exact ⟨le_refl _, le_of_not_lt h⟩
    rcases List.mem_cons.mp hx with rfl | hx'
    · exact le_trans hstep.1 (ih (betterFib x y) _ (List.mem_cons_self _ _))
    · rcases List.mem_cons.mp hx' with rfl | hx''
      · exact le_trans hstep.2 (ih (betterFib e x) _ (List.mem_cons_self _ _))
      · exact ih (betterFib e y) x (List.mem_cons_of_mem _ hx'')

/-- `findLongestPrefixMatch` returns a matching entry of maximal prefix
length (or the empty entry when nothing matches). -/
theorem findLPM_spec (fib : List FibEntry) (name : Name) :
    namePrefixOf (findLongestPrefixMatch fib name).pfx name = true ∧
    (findLongestPrefixMatch fib name ∈ fib ∨
      findLongestPrefixMatch fib name = emptyFibEntry) ∧
    ∀ e ∈ fib, namePrefixOf e.pfx name = true →
      e.pfx.length ≤ (findLongestPrefixMatch fib name).pfx.length := by
  unfold findLongestPrefixMatch
  cases hf : fib.filter (fun e => namePrefixOf e.pfx name) with
  | nil =>
    refine ⟨by simp [emptyFibEntry, namePrefixOf], Or.inr rfl, ?_⟩
    intro e he hepre
    have hmem : e ∈ fib.filter (fun e => namePrefixOf e.pfx name) :=
      List.mem_filter.mpr ⟨he, by simp [hepre]⟩
    rw [hf] at hmem
    simp at hmem
  | cons e0 es =>
    have hmem : es.foldl betterFib e0 ∈ fib.filter (fun e => namePrefixOf e.pfx name) := by
      rw [hf]
      exact foldl_betterFib_mem es e0
    have hfm := List.mem_filter.mp hmem
    refine ⟨by simpa using hfm.2, Or.inl hfm.1, ?_⟩
    intro e he hepre
    have : e ∈ e0 :: es := by
      rw [← hf]
      exact List.mem_filter.mpr ⟨he, by simp [hepre]⟩
    exact foldl_betterFib_length es e0 e this

theorem lookupDelegations_first {fib : List FibEntry} :
    ∀ pre d post, (∀ d' ∈ pre, (findLongestPrefixMatch fib d').nextHops = []) →
      (findLongestPrefixMatch fib d).nextHops ≠ [] →
      lookupDelegations fib (pre ++ d :: post) = findLongestPrefixMatch fib d := by
  intro pre
  induction pre with
  | nil =>
    intro d post _ hnh
    cases post with
    | nil => rfl
    | cons q qs =>
      show lookupDelegations fib (d :: q :: qs) = _
      unfold lookupDelegations
      rw [if_neg (by simp [List.isEmpty_iff, hnh])]
  | cons p ps ih =>
    intro d post hpre hnh
    have hp0 : (findLongestPrefixMatch fib p).nextHops = [] :=
      hpre p (List.mem_cons_self _ _)
    cases hcase : ps ++ d :: post with
    | nil => exact absurd hcase (by simp)
    | cons q qs =>
      show lookupDelegations fib (p :: (ps ++ d :: post)) = _
      rw [hcase]
      unfold lookupDelegations
      rw [if_pos (by simp [hp0])]
      rw [← hcase]
      exact ih d post (fun d' hd' => hpre d' (List.mem_cons_of_mem _ hd')) hnh

theorem lookupDelegations_all_empty {fib : List FibEntry}
    (hroot : ∀ e ∈ fib, e.nextHops = [] → e.pfx = []) :
    ∀ fh, fh ≠ [] → (∀ d ∈ fh, (findLongestPrefixMatch fib d).nextHops = []) →
      (lookupDelegations fib fh).pfx = [] ∧ (lookupDelegations fib fh).nextHops = [] := by
  intro fh
  induction fh with
  | nil => intro h; exact absurd rfl h
  | cons d rest ih =>
    intro _ hall
    have hd := hall d (List.mem_cons_self _ _)
    cases rest with
    | nil =>
      constructor
      · show (findLongestPrefixMatch fib d).pfx = []
        rcases (findLPM_spec fib d).2.1 with hmem | hempty
        · exact hroot _ hmem hd
        · rw [hempty]
          rfl
      · exact hd
    | cons d' rest' =>
      show (lookupDelegations fib (d :: d' :: rest')).pfx = [] ∧ _
      unfold lookupDelegations
      rw [if_pos (by simp [hd])]
      exact ih (by simp) fun x hx => hall x (List.mem_cons_of_mem _ hx)

/-- C2: `Strategy::lookupFib`.  With no forwarding hint the result is the
longest-prefix-match FIB entry for the Interest name (a matching entry of
maximal prefix length); with a nonempty delegation list the FIB is consulted
with each delegation name in order and the first longest-prefix-match result
with next-hops is returned; when no delegation finds next-hops, the result is
the root (empty-prefix, no next-hop) entry, given the FIB invariant that only
the root entry may lack next-hops. -/
theorem lookupFib_spec (fib : List FibEntry) (interestName : Name) (fh : List Name)
    (hroot : ∀ e ∈ fib, e.nextHops = [] → e.pfx = []) :
    (fh = [] → lookupFib fib interestName fh = findLongestPrefixMatch fib interestName) ∧
    (namePrefixOf (findLongestPrefixMatch fib interestName).pfx interestName = true ∧
     (findLongestPrefixMatch fib interestName ∈ fib ∨
       findLongestPrefixMatch fib interestName = emptyFibEntry) ∧
     ∀ e ∈ fib, namePrefixOf e.pfx interestName = true →
       e.pfx.length ≤ (findLongestPrefixMatch fib interestName).pfx.length) ∧
    (∀ pre d post, fh = pre ++ d :: post →
       (∀ d' ∈ pre, (findLongestPrefixMatch fib d').nextHops = []) →
       (findLongestPrefixMatch fib d).nextHops ≠ [] →
       lookupFib fib interestName fh = findLongestPrefixMatch fib d) ∧
    (fh ≠ [] → (∀ d ∈ fh, (findLongestPrefixMatch fib d).nextHops = []) →
       (lookupFib fib interestName fh).pfx = [] ∧
       (lookupFib fib interestName fh).nextHops = []) := by
  refine ⟨?_, findLPM_spec fib interestName, ?_, ?_⟩
  · intro hnil
    subst hnil
    rfl
  · intro pre d post hfh hpre hnh
    subst hfh
    unfold lookupFib
    rw [if_neg (by simp)]
    exact lookupDelegations_first pre d post hpre hnh
  · intro hne hall
    unfold lookupFib
    rw [if_neg (by simpa [List.isEmpty_iff] using hne)]
    exact lookupDelegations_all_empty hroot fh hne hall

/-- Concrete FIB used by the witness: two nested prefixes, both with
next-hops. -/
def demoFib : List FibEntry :=
  [⟨[genComp 1], [⟨7, 10⟩]⟩, ⟨[genComp 1, genComp 2], [⟨9, 5⟩]⟩]

/-- Witness instantiating `lookupFib_spec`: without a forwarding hint the
lookup is the longest-prefix match of the Interest name, and with a
delegation list the first delegation with next-hops wins. -/
theorem lookupFib_spec_witness :
    lookupFib demoFib [genComp 1, genComp 2, genComp 3] [] =
      findLongestPrefixMatch demoFib [genComp 1, genComp 2, genComp 3] ∧
    lookupFib demoFib [genComp 9] [[genComp 5], [genComp 1]] =
      findLongestPrefixMatch demoFib [genComp 1] :=
  ⟨(lookupFib_spec demoFib [genComp 1, genComp 2, genComp 3] [] (by decide)).1 rfl,
   (lookupFib_spec demoFib [genComp 9] [[genComp 5], [genComp 1]] (by decide)).2.2.1
     [[genComp 5]] [genComp 1] [] rfl (by decide) (by decide)⟩

/-! ### PIT entries, faces and the strategy send actions

Source: `Strategy::sendData`, `Strategy::sendDataToAll`,
`Strategy::afterReceiveData`, `Strategy::sendInterest`
(src/daemon/fw/strategy.cpp lines 174-297). -/

inductive LinkType
  | pointToPoint
  | multiAccess
  | adHoc
deriving DecidableEq, Repr

structure Face where
  id : Nat
  linkType : LinkType
deriving DecidableEq, Repr

/-- The fixed-layout PIT token (`ST_PIT_TOKEN`).  Modelled from the spec for
the layout (mw-nfd-global.hpp is not under src/): worker id, CanBePrefix bit,
optional 64-bit name hash.  A field is `none` when the build flags leave it
unset. -/
structure StPitToken where
  workerId : Option Nat
  canBePrefix : Option Bool
  hashValue : Option Nat
deriving DecidableEq, Repr

structure InRecord where
  face : Face
  expiry : Nat
  interestToken : Option StPitToken
deriving DecidableEq, Repr

structure PitEntry where
  inRecords : List InRecord
  workerId : Nat
deriving DecidableEq, Repr

structure DataPkt where
  tag : Option StPitToken
deriving DecidableEq, Repr

/-- Source: `pit::Entry::getInRecord` - the in-record for a given face. -/
def getInRecord (e : PitEntry) (egress : Face) : Option InRecord :=
  e.inRecords.find? (fun r => r.face.id == egress.id)

/-- Source: `pit::Entry::deleteInRecord` - remove the in-record for a face
(at most one exists per face, invariant I1). -/
def deleteInRecord (e : PitEntry) (egress : Face) : PitEntry :=
  { e with inRecords := e.inRecords.filter (fun r => r.face.id != egress.id) }

/-- The observable outcome of `Strategy::sendData`: the PIT entry state at
the moment `Forwarder::onOutgoingData` is invoked, and the Data handed to
it. -/
structure SendDataResult where
  pitAtHandOff : PitEntry
  outData : DataPkt
deriving DecidableEq, Repr

/-- Source: `Strategy::sendData` - read the PitToken tag from the in-record
for `egress` (none when the in-record is missing), delete that in-record,
then hand the Data to the outgoing pipeline with the token set (or the tag
removed). -/
def sendData (e : PitEntry) (data : DataPkt) (egress : Face) : SendDataResult :=
  match getInRecord e egress with
  | some r =>
    match r.interestToken with
    | some t => ⟨deleteInRecord e egress, { data with tag := some t }⟩
    | none => ⟨deleteInRecord e egress, { data with tag := none }⟩
  | none => ⟨deleteInRecord e egress, { data with tag := none }⟩

/-- C4: `Strategy::sendData` copies the PitToken of the in-record matching
the egress face onto the outgoing Data (stripping the tag when there is
none), and the in-record for the egress face is removed from the PIT entry
before the Data is handed to the outgoing pipeline. -/
theorem sendData_spec (e : PitEntry) (data : DataPkt) (egress : Face) :
    ((sendData e data egress).outData.tag =
       match getInRecord e egress with
       | some r => r.interestToken
       | none => none) ∧
    (sendData e data egress).pitAtHandOff = deleteInRecord e egress ∧
    getInRecord (sendData e data egress).pitAtHandOff egress = none := by
  have hpit : (sendData e data egress).pitAtHandOff = deleteInRecord e egress := by
    cases hr : getInRecord e egress with
    | none => simp [sendData, hr]
    | some r => cases ht : r.interestToken <;> simp [sendData, hr, ht]
  have hdel : getInRecord (deleteInRecord e egress) egress = none := by
    unfold getInRecord deleteInRecord
    rw [List.find?_eq_none]
    intro x hx
    have hne := (List.mem_filter.mp hx).2
    simp only [bne_iff_ne, ne_eq] at hne
    simp [hne]
  refine ⟨?_, hpit, by rw [hpit]; exact hdel⟩
  cases hr : getInRecord e egress with
  | none => simp [sendData, hr]
  | some r => cases ht : r.interestToken <;> simp [sendData, hr, ht]

/-- Witness for `sendData_spec` is not required (no hypotheses), but the
events of `afterReceiveData` are exercised below. -/
inductive StrategyEvent
  | beforeSatisfy
  | sentData (faceId : Nat)
deriving DecidableEq, Repr

/-- One iteration of the downstream collection loop of
`Strategy::sendDataToAll`: keep faces with unexpired in-records, skip the
ingress face unless its link type is ad-hoc, and de-duplicate
(`std::set::emplace`). -/
def pdStep (inFace : Face) (now : Nat) (acc : List Face) (r : InRecord) : List Face :=
  if now < r.expiry then
    if r.face.id = inFace.id ∧ r.face.linkType ≠ .adHoc then acc
    else if acc.any (fun f => f.id == r.face.id) then acc else acc ++ [r.face]
  else acc

/-- The `pendingDownstreams` set of `Strategy::sendDataToAll`. -/
def pendingDownstreams (e : PitEntry) (inFace : Face) (now : Nat) : List Face :=
  e.inRecords.foldl (pdStep inFace now) []

/-- Source: `Strategy::sendDataToAll` - collect the pending downstreams,
then invoke `sendData` for each. -/
def sendDataToAll (e : PitEntry) (inFace : Face) (data : DataPkt) (now : Nat) :
    PitEntry × List StrategyEvent :=
  (pendingDownstreams e inFace now).foldl
    (fun st f => ((sendData st.1 data f).pitAtHandOff, st.2 ++ [.sentData f.id]))
    (e, [])

/-- Source: default `Strategy::afterReceiveData` - invoke
`beforeSatisfyInterest`, then `sendDataToAll`. -/
def afterReceiveData (e : PitEntry) (inFace : Face) (data : DataPkt) (now : Nat) :
    PitEntry × List StrategyEvent :=
  ((sendDataToAll e inFace data now).1,
   .beforeSatisfy :: (sendDataToAll e inFace data now).2)

theorem pd_mem_iff (inFace : Face) (now : Nat) (fid : Nat) :
    ∀ (records : List InRecord) (acc : List Face),
      ((∃ f ∈ records.foldl (pdStep inFace now) acc, f.id = fid) ↔
        ((∃ f ∈ acc, f.id = fid) ∨
         ∃ r ∈ records, r.face.id = fid ∧ now < r.expiry ∧
           (r.face.id ≠ inFace.id ∨ r.face.linkType = .adHoc))) := by
  intro records
  induction records with
  | nil => simp
  | cons r rs ih =>
    intro acc
    simp only [List.foldl_cons]
    rw [ih]
    constructor
    · rintro (hacc | ⟨r', hr', hp⟩)
      · by_cases h1 : now < r.expiry
        · by_cases h2 : r.face.id = inFace.id ∧ r.face.linkType ≠ .adHoc
          · rw [pdStep, if_pos h1, if_pos h2] at hacc
            exact Or.inl hacc
          · by_cases h3 : acc.any (fun f => f.id == r.face.id) = true
            · rw [pdStep, if_pos h1, if_neg h2, if_pos h3] at hacc
              exact Or.inl hacc
            · rw [pdStep, if_pos h1, if_neg h2, if_neg h3] at hacc
              obtain ⟨f, hf, hfid⟩ := hacc
              rcases List.mem_append.mp hf with hfa | hfr
              · exact Or.inl ⟨f, hfa, hfid⟩
              · simp only [List.mem_singleton] at hfr
                subst hfr
                push_neg at h2
                refine Or.inr ⟨r, List.mem_cons_self _ _, hfid, h1, ?_⟩
                by_cases hsame : r.face.id = inFace.id
                · exact Or.inr (h2 hsame)
                · exact Or.inl hsame
        · rw [pdStep, if_neg h1] at hacc
          exact Or.inl hacc
      · exact Or.inr ⟨r', List.mem_cons_of_mem _ hr', hp⟩
    · rintro (hacc | ⟨r', hr', hp⟩)
      · left
        obtain ⟨f, hf, hfid⟩ := hacc
        refine ⟨f, ?_, hfid⟩
        unfold pdStep
        split_ifs with h1 h2 h3
        · exact hf
        · exact hf
        · exact List.mem_append_left _ hf
        · exact hf
      · rcases List.mem_cons.mp hr' with rfl | hrs
        · obtain ⟨hid, hexp, hguard⟩ := hp
          left
          unfold pdStep
          rw [if_pos hexp]
          have hg2 : ¬(r'.face.id = inFace.id ∧ r'.face.linkType ≠ .adHoc) := by
            rintro ⟨ha, hb⟩
            rcases hguard with hg | hg
            · exact hg ha
            · exact hb hg
          rw [if_neg hg2]
          by_cases h3 : acc.any (fun f => f.id == r'.face.id) = true
          · rw [if_pos h3]
            obtain ⟨f, hf, hfr⟩ := List.any_eq_true.mp h3
            refine ⟨f, hf, ?_⟩
            simp only [beq_iff_eq] at hfr
            rw [hfr, hid]
          · rw [if_neg h3]
            exact ⟨r'.face, List.mem_append_right _ (List.mem_singleton.mpr rfl), hid⟩
        · right
          exact ⟨r', hrs, hp⟩

theorem pd_distinct (inFace : Face) (now : Nat) :
    ∀ (records : List InRecord) (acc : List Face),
      acc.Pairwise (fun f g => f.id ≠ g.id) →
      (records.foldl (pdStep inFace now) acc).Pairwise (fun f g => f.id ≠ g.id) := by
  intro records
  induction records with
  | nil => intro acc hacc; simpa using hacc
  | cons r rs ih =>
    intro acc hacc
    simp only [List.foldl_cons]
    apply ih
    unfold pdStep
    split_ifs with h1 h2 h3
    · exact hacc
    · exact hacc
    · rw [List.pairwise_append]
      refine ⟨hacc, by simp, ?_⟩
      intro a ha b hb
      simp only [List.mem_singleton] at hb
      subst hb
      intro heq
      exact h3 (List.any_eq_true.mpr ⟨a, ha, by simp [heq]⟩)
    · exact hacc

theorem sendDataToAll_events_aux (data : DataPkt) :
    ∀ (fs : List Face) (st : PitEntry × List StrategyEvent),
      (fs.foldl
        (fun st f => ((sendData st.1 data f).pitAtHandOff, st.2 ++ [.sentData f.id]))
        st).2 = st.2 ++ fs.map (fun f => StrategyEvent.sentData f.id) := by
  intro fs
  induction fs with
  | nil => intro st; simp
  | cons f fs ih =>
    intro st
    simp only [List.foldl_cons, List.map_cons]
    rw [ih]
    simp

theorem filter_sentData_once {fs : List Face}
    (hd : fs.Pairwise (fun f g => f.id ≠ g.id)) (fid : Nat) :
    ((fs.map (fun f => StrategyEvent.sentData f.id)).filter
      (fun ev => ev == StrategyEvent.sentData fid)).length ≤ 1 := by
  induction fs with
  | nil => simp
  | cons f fs ih =>
    simp only [List.map_cons, List.filter_cons]
    by_cases hf : f.id = fid
    · rw [if_pos (by simp [hf])]
      have hnone : ∀ g ∈ fs, g.id ≠ fid := by
        intro g hg
        have := List.rel_of_pairwise_cons hd hg
        rw [hf] at this
        exact fun hgf => this hgf.symm
      have hzero : (fs.map (fun f => StrategyEvent.sentData f.id)).filter
          (fun ev => ev == StrategyEvent.sentData fid) = [] := by
        rw [List.filter_eq_nil_iff]
        intro ev hev
        obtain ⟨g, hg, rfl⟩ := List.mem_map.mp hev
        simp [hnone g hg]
      rw [hzero]
      simp
    · rw [if_neg (by simp [hf])]
      exact ih hd.tail

/-- C3 (amended): the default `afterReceiveData` trigger first invokes
`beforeSatisfyInterest`, then sends the Data - at most once per face - to
every face holding an in-record that has not expired (`expiry > now`),
excluding the ingress face unless that face's link type is ad-hoc. -/
theorem afterReceiveData_spec (e : PitEntry) (inFace : Face) (data : DataPkt) (now : Nat) :
    ((afterReceiveData e inFace data now).2.head? = some .beforeSatisfy) ∧
    (∀ fid, StrategyEvent.sentData fid ∈ (afterReceiveData e inFace data now).2 ↔
      ∃ r ∈ e.inRecords, r.face.id = fid ∧ now < r.expiry ∧
        (r.face.id ≠ inFace.id ∨ r.face.linkType = .adHoc)) ∧
    (∀ fid, ((afterReceiveData e inFace data now).2.filter
      (fun ev => ev == StrategyEvent.sentData fid)).length ≤ 1) := by
  have hev : (afterReceiveData e inFace data now).2 =
      .beforeSatisfy ::
        (pendingDownstreams e inFace now).map (fun f => StrategyEvent.sentData f.id) := by
    unfold afterReceiveData sendDataToAll
    rw [sendDataToAll_events_aux data (pendingDownstreams e inFace now) (e, [])]
    simp
  refine ⟨by rw [hev]; rfl, ?_, ?_⟩
  · intro fid
    rw [hev]
    have hmem := pd_mem_iff inFace now fid e.inRecords []
    simp only [List.mem_singleton, List.not_mem_nil, false_and, exists_false,
      false_or] at hmem
    constructor
    · intro h
      rcases List.mem_cons.mp h with habs | hmap
      · exact absurd habs (by simp)
      · obtain ⟨f, hf, hfeq⟩ := List.mem_map.mp hmap
        have hfid : f.id = fid := by
          have := hfeq
          simp only [StrategyEvent.sentData.injEq] at this
          exact this
        exact hmem.mp ⟨f, hf, hfid⟩
    · intro h
      obtain ⟨f, hf, hfid⟩ := hmem.mpr h
      exact List.mem_cons_of_mem _ (List.mem_map.mpr ⟨f, hf, by rw [hfid]⟩)
  · intro fid
    rw [hev]
    have hdist : (pendingDownstreams e inFace now).Pairwise (fun f g => f.id ≠ g.id) :=
      pd_distinct inFace now e.inRecords [] (by simp)
    simp only [List.filter_cons]
    rw [if_neg (by simp)]
    exact filter_sentData_once hdist fid

/-- C3 counterexample (to the claim as stated): a face whose in-record has
expired (`expiry ≤ now`) holds an in-record yet receives no Data. -/
theorem afterReceiveData_expired_counterexample :
    (∃ r ∈ (⟨[⟨⟨2, .pointToPoint⟩, 5, none⟩], 0⟩ : PitEntry).inRecords,
       r.face.id = 2) ∧ (2 : Nat) ≠ 1 ∧
    StrategyEvent.sentData 2 ∉
      (afterReceiveData ⟨[⟨⟨2, .pointToPoint⟩, 5, none⟩], 0⟩
        ⟨1, .pointToPoint⟩ ⟨none⟩ 10).2 := by
  decide

/-! ### sendInterest and the PIT token

Source: `Strategy::sendInterest` (src/daemon/fw/strategy.cpp lines 199-234).
The body is conditionally compiled on ETRI_NFD_ORG_ARCH, ETRI_DUAL_CS and
ETRI_PITTOKEN_HASH; the flags are explicit parameters of the embedding. -/

structure BuildFlags where
  orgArch : Bool
  dualCs : Bool
  ptHash : Bool
deriving DecidableEq, Repr

structure InterestPkt where
  canBePrefix : Bool
  tag : Option StPitToken
deriving DecidableEq, Repr

/-- The ST_PIT_TOKEN populated by `sendInterest`: workerId under
`!ETRI_NFD_ORG_ARCH || ETRI_DUAL_CS || ETRI_PITTOKEN_HASH`, the CanBePrefix
bit under ETRI_DUAL_CS, the name-tree hash under ETRI_PITTOKEN_HASH. -/
def makeStToken (fl : BuildFlags) (e : PitEntry) (interest : InterestPkt)
    (nodeHash : Nat) : StPitToken :=
  { workerId := if !fl.orgArch || fl.dualCs || fl.ptHash then some e.workerId else none
    canBePrefix := if fl.dualCs then some interest.canBePrefix else none
    hashValue := if fl.ptHash then some nodeHash else none }

/-- The observable outcome of `Strategy::sendInterest`: what is handed to
`Forwarder::onOutgoingInterest`, whether that is a copy (`interest2`), and
the caller's Interest after the call. -/
structure SendInterestResult where
  handed : InterestPkt
  handedIsCopy : Bool
  originalAfter : InterestPkt
deriving DecidableEq, Repr

/-- Source: `Strategy::sendInterest` - when the incoming Interest carries a
PitToken tag, copy it, remove the tag on the copy, attach the new token to
the copy and forward the copy; otherwise attach the new token to the
Interest itself (only under ETRI_DUAL_CS or ETRI_PITTOKEN_HASH) and forward
it. -/
def sendInterest (fl : BuildFlags) (e : PitEntry) (interest : InterestPkt)
    (nodeHash : Nat) : SendInterestResult :=
  match interest.tag with
  | some _ =>
    if !fl.orgArch || fl.dualCs || fl.ptHash then
      ⟨{ interest with tag := some (makeStToken fl e interest nodeHash) }, true, interest⟩
    else
      ⟨{ interest with tag := none }, true, interest⟩
  | none =>
    if fl.dualCs || fl.ptHash then
      ⟨{ interest with tag := some (makeStToken fl e interest nodeHash) }, false,
       { interest with tag := some (makeStToken fl e interest nodeHash) }⟩
    else
      ⟨interest, false, interest⟩

/-- C5: `Strategy::sendInterest` under a build with ETRI_DUAL_CS or
ETRI_PITTOKEN_HASH (the configurations whose token layout the spec
describes): the Interest handed to the outgoing pipeline carries the newly
allocated fixed-layout token, whose workerId field holds the PIT entry's
worker id; and when the input Interest already carries a PitToken the token
is attached to a copy, leaving the original Interest and its tag
unchanged. -/
theorem sendInterest_spec (fl : BuildFlags) (e : PitEntry) (interest : InterestPkt)
    (nodeHash : Nat) (hfl : fl.dualCs = true ∨ fl.ptHash = true) :
    ((sendInterest fl e interest nodeHash).handed.tag =
       some (makeStToken fl e interest nodeHash) ∧
     (makeStToken fl e interest nodeHash).workerId = some e.workerId) ∧
    (∀ t, interest.tag = some t →
      (sendInterest fl e interest nodeHash).handedIsCopy = true ∧
      (sendInterest fl e interest nodeHash).originalAfter = interest) := by
  have hcond : (!fl.orgArch || fl.dualCs || fl.ptHash) = true := by
    rcases hfl with h | h <;> simp [h]
  have hcond2 : (fl.dualCs || fl.ptHash) = true := by
    rcases hfl with h | h <;> simp [h]
  have hw : (makeStToken fl e interest nodeHash).workerId = some e.workerId := by
    unfold makeStToken
    rw [if_pos hcond]
  constructor
  · refine ⟨?_, hw⟩
    unfold sendInterest
    cases ht : interest.tag with
    | some t =>
      rw [if_pos hcond]
    | none =>
      rw [if_pos hcond2]
  · intro t ht
    unfold sendInterest
    rw [ht]
    rw [if_pos hcond]
    exact ⟨rfl, rfl⟩

/-- Witness instantiating `sendInterest_spec` at a dual-CS build and an
Interest that already carries a tag: the outgoing packet is a copy. -/
theorem sendInterest_spec_witness :
    (sendInterest ⟨false, true, false⟩ ⟨[], 4⟩ ⟨true, some ⟨none, none, none⟩⟩ 0).handedIsCopy
      = true ∧
    (sendInterest ⟨false, true, false⟩ ⟨[], 4⟩ ⟨true, some ⟨none, none, none⟩⟩ 0).handed.tag
      = some (makeStToken ⟨false, true, false⟩ ⟨[], 4⟩ ⟨true, some ⟨none, none, none⟩⟩ 0) :=
  ⟨((sendInterest_spec ⟨false, true, false⟩ ⟨[], 4⟩ ⟨true, some ⟨none, none, none⟩⟩ 0
      (Or.inl rfl)).2 ⟨none, none, none⟩ rfl).1,
   ((sendInterest_spec ⟨false, true, false⟩ ⟨[], 4⟩ ⟨true, some ⟨none, none, none⟩⟩ 0
      (Or.inl rfl)).1).1⟩

/-! ### CS replacement policy limit

Source: `Policy::setLimit` (src/daemon/table/cs-policy.cpp lines 67-80) with
the LRU policy of cs-policy-lru.hpp.  The body of `LruPolicy::evictEntries`
(cs-policy-lru.cpp) is not under src/ and is modelled from the spec. -/

structure LruState where
  limit : Nat
  queue : List Nat
deriving DecidableEq, Repr

/-- Modelled from the spec: `LruPolicy::evictEntries` (its .cpp is not under
src/) - "eviction removes from the head" of the LRU queue until
"size ≤ limit". -/
def evictEntries (s : LruState) : LruState :=
  if s.limit < s.queue.length then evictEntries { s with queue := s.queue.tail }
  else s
termination_by s.queue.length
decreasing_by
  simp only [List.length_tail]
  omega

/-- Source: `Policy::setLimit` - store the new limit, then call
`evictEntries` unconditionally. -/
def setLimit (s : LruState) (n : Nat) : LruState :=
  evictEntries { s with limit := n }

theorem evictEntries_le (s : LruState) :
    (evictEntries s).queue.length ≤ s.limit ∧ (evictEntries s).limit = s.limit := by
  rw [evictEntries]
  split_ifs with h
  · exact evictEntries_le { s with queue := s.queue.tail }
  · exact ⟨le_of_not_lt h, rfl⟩
termination_by s.queue.length
decreasing_by
  simp only [List.length_tail]
  omega

/-- C6: `Policy::setLimit(n)` stores `n` as the limit and invokes
`evictEntries`, so afterwards the number of entries tracked by the policy is
at most `n` - whether `n` is below or above the previous limit. -/
theorem setLimit_spec (s : LruState) (n : Nat) :
    (setLimit s n).limit = n ∧ (setLimit s n).queue.length ≤ n := by
  have h := evictEntries_le { s with limit := n }
  exact ⟨h.2, h.1⟩

/-! ### Internal transport

Source: `InternalForwarderTransport::doSend` and
`InternalClientTransport::connectToForwarder`
(src/daemon/face/internal-transport.cpp lines 87-135). -/

inductive TransportState
  | up
  | down
  | closing
  | failed
  | closed
deriving DecidableEq, Repr

/-- The joint state of one forwarder-side / client-side internal transport
pair: whether the forwarder's `m_peer` points at the client, whether the
client's `m_forwarder` is set, whether the client's `afterStateChange`
signal connection is live, and the forwarder transport's state. -/
structure InternalPairState where
  fwPeerSet : Bool
  clientFwSet : Bool
  signalConn : Bool
  fwState : TransportState
deriving DecidableEq, Repr

/-- Source: `InternalForwarderTransport::doSend` - call the peer's
`receivePacket` when a peer is connected, otherwise drop silently.  The
result is the packet delivered to the peer, or `none`. -/
def doSend (st : InternalPairState) (packet : Nat) : Option Nat :=
  if st.fwPeerSet then some packet else none

/-- Source: `InternalClientTransport::connectToForwarder` - disconnect from
any old forwarder transport (clear its peer and drop the signal connection),
then connect to the new one when non-null. -/
def connectToForwarder (st : InternalPairState) (newFw : Bool) : InternalPairState :=
  let st1 :=
    if st.clientFwSet then
      { st with fwPeerSet := false, signalConn := false, clientFwSet := false }
    else st
  if newFw then { st1 with clientFwSet := true, fwPeerSet := true, signalConn := true }
  else st1

/-- Source: `Transport::setState` on the forwarder side plus the client's
`afterStateChange` handler: when the state changes to CLOSED and the signal
connection is live, the client runs `connectToForwarder(nullptr)`. -/
def fwSetState (st : InternalPairState) (ns : TransportState) : InternalPairState :=
  if st.fwState = ns then st
  else
    if st.signalConn ∧ ns = .closed then
      connectToForwarder { st with fwState := ns } false
    else { st with fwState := ns }

/-- C8: an internal forwarder transport's `doSend` delivers the packet to
the connected peer's `receivePacket` and silently drops it when no peer is
connected; and when the forwarder-side transport's state changes to CLOSED,
the connected client transport disconnects itself - its forwarder pointer
and the forwarder's peer pointer are both cleared. -/
theorem internalTransport_spec (st : InternalPairState) (packet : Nat)
    (ns : TransportState) :
    (st.fwPeerSet = true → doSend st packet = some packet) ∧
    (st.fwPeerSet = false → doSend st packet = none) ∧
    (st.clientFwSet = true → st.signalConn = true → ns = .closed →
      st.fwState ≠ .closed →
      (fwSetState st ns).clientFwSet = false ∧ (fwSetState st ns).fwPeerSet = false) := by
  refine ⟨?_, ?_, ?_⟩
  · intro h
    unfold doSend
    rw [if_pos h]
  · intro h
    unfold doSend
    rw [if_neg (by rw [h]; exact Bool.false_ne_true)]
  · intro hc hs hns hst
    unfold fwSetState
    rw [if_neg (by rw [hns]; exact hst)]
    rw [if_pos ⟨by rw [hs], hns⟩]
    unfold connectToForwarder
    simp [hc]

/-- Witness instantiating `internalTransport_spec` on a connected pair that
the forwarder side then closes. -/
theorem internalTransport_spec_witness :
    doSend ⟨true, true, true, .up⟩ 42 = some 42 ∧
    (fwSetState ⟨true, true, true, .up⟩ .closed).clientFwSet = false ∧
    (fwSetState ⟨true, true, true, .up⟩ .closed).fwPeerSet = false :=
  ⟨(internalTransport_spec ⟨true, true, true, .up⟩ 42 .closed).1 rfl,
   ((internalTransport_spec ⟨true, true, true, .up⟩ 42 .closed).2.2 rfl rfl rfl
     (by simp)).1,
   ((internalTransport_spec ⟨true, true, true, .up⟩ 42 .closed).2.2 rfl rfl rfl
     (by simp)).2⟩

end MwNfd
